import Mathlib

/-!
Verification development for the UnrealProjectAnalyzer source indexing and
cross-reference engine.

The Python analyzer is shallowly embedded here:

* Python `str` values handled character-wise are modelled as `PyStr := List Char`;
  resolved absolute filesystem paths are modelled as lists of path components
  (`PyPath := List PyStr`), so `Path.is_relative_to` becomes list-prefix.
* The filesystem is a finite association list from paths to the list of lines
  obtained from `content.split("\n")`.
* The tree-sitter parser and the Python regex engine are external libraries,
  not repository code; they enter the model as opaque values (cached syntax
  trees) and as an oracle argument (`compile` for `re.compile`).
* Fallible operations return `Option`/`Except`; the unbounded recursion of the
  hierarchy builder is modelled with an explicit fuel argument where running
  out of fuel (`none`) represents a computation that did not terminate within
  the given recursion depth.

Definitions are transcribed from:
* `src/Content/Python/unreal_copilot/cpp_analyzer/analyzer.py`
* `src/Content/Python/unreal_copilot/config.py`
* `src/MCP/src/unreal_analyzer/cpp_analyzer/patterns.py`
* `src/MCP/src/unreal_analyzer/cpp_analyzer/analyzer.py`
* `src/MCP/src/unreal_analyzer/tools/cross_domain.py`
-/

/-- Python `str` modelled character-wise. -/
abbrev PyStr := List Char

/-- A resolved absolute path, as its list of components. -/
abbrev PyPath := List PyStr

/-- Python whitespace for `str.strip` / `\s` (space, tab, LF, CR, VT, FF). -/
def pyIsSpace (c : Char) : Bool :=
  c = ' ' || c = '\t' || c = '\n' || c = '\r' || c = '\x0b' || c = '\x0c'

/-- Python `str.strip()` with no arguments: drop leading and trailing whitespace. -/
def pyStrip (s : PyStr) : PyStr :=
  ((s.dropWhile pyIsSpace).reverse.dropWhile pyIsSpace).reverse

/-- Python `a.startswith(b)`. -/
def pyStartsWith (s pre : PyStr) : Bool :=
  decide (pre <+: s)

/-- Python `a.endswith(b)`. -/
def pyEndsWith (s suf : PyStr) : Bool :=
  decide (suf <:+ s)

/-- Python `needle in hay` on strings (substring containment). -/
def pyContainsSub (needle hay : PyStr) : Bool :=
  decide (needle <:+: hay)

/-- Python `c in s` for a single character. -/
def pyContainsChar (c : Char) (s : PyStr) : Bool :=
  s.any (· = c)

/-- Python `str.lower()` (ASCII-level model via `Char.toLower`). -/
def pyLower (s : PyStr) : PyStr :=
  s.map Char.toLower

/-- Python `hay.find(needle)`: index of the first occurrence of a substring,
`none` standing for the `-1` result. -/
def pyFindSub (needle hay : PyStr) : Option Nat :=
  match hay with
  | [] => if needle = [] then some 0 else none
  | _ :: t =>
    if needle <+: hay then some 0
    else (pyFindSub needle t).map (· + 1)

/-- Python `s.split(sep)` for a one-character separator. -/
def pySplitOnChar (c : Char) (s : PyStr) : List PyStr :=
  match s with
  | [] => [[]]
  | x :: t =>
    let rest := pySplitOnChar c t
    if x = c then [] :: rest
    else
      match rest with
      | [] => [[x]]
      | h :: r => (x :: h) :: r

/-- Python `re.split(r"\s+", s)` followed by dropping empties, as done by
token-mode query splitting: the maximal whitespace-free words of `s`. -/
def pySplitWs (s : PyStr) : List PyStr :=
  (List.splitOnP (fun c => pyIsSpace c) s).filter (· ≠ [])

/-- Python `str(n)` for a non-negative integer. -/
def pyNat (n : Nat) : PyStr :=
  (Nat.repr n).data

/-- Python `lines[a:b]` slicing on lists (with natural-number clamping,
matching `max(0, ...)` in the callers). -/
def pySlice (l : List α) (a b : Nat) : List α :=
  (l.drop a).take (b - a)

/-- Python `"\n".join(lines)` (as a flat character list). -/
def pyJoinLines (lines : List PyStr) : PyStr :=
  match lines with
  | [] => []
  | [l] => l
  | l :: t => l ++ '\n' :: pyJoinLines t

/-- The last path component (`pathlib.Path(p).name`) of a rendered path string,
i.e. the segment after the final slash. -/
def pyPathName (s : PyStr) : PyStr :=
  (pySplitOnChar '/' s).getLastD []

/-- `pathlib.Path(p).stem`: the final component without its last suffix.
CPython takes the suffix to start at the last dot only when that dot is
neither the first nor the last character of the name. -/
def pyStem (n : PyStr) : PyStr :=
  match pyFindSub ['.'] n.reverse with
  | none => n
  | some rIdx =>
    let i := n.length - 1 - rIdx
    if 0 < i ∧ i < n.length - 1 then n.take i else n

/- ===========================================================================
Annotation pattern detector
`src/MCP/src/unreal_analyzer/cpp_analyzer/patterns.py`, `parse_specifiers`
=========================================================================== -/

/-- One step state of the `parse_specifiers` character loop:
accumulated result, current token, and parenthesis depth (a Python `int`,
which may go negative). -/
def parseSpecifiersStep (st : List PyStr × PyStr × Int) (c : Char) :
    List PyStr × PyStr × Int :=
  let (result, current, depth) := st
  if c = '(' then
    (result, current ++ [c], depth + 1)
  else if c = ')' then
    (result, current ++ [c], depth - 1)
  else if c = ',' ∧ depth = 0 then
    (if pyStrip current ≠ [] then result ++ [pyStrip current] else result, [], depth)
  else
    (result, current ++ [c], depth)

/-- `parse_specifiers(specifiers_str)`: split a macro argument string on
commas at parenthesis depth zero, stripping each piece and dropping empty
pieces. -/
def parse_specifiers (s : PyStr) : List PyStr :=
  let (result, current, _) := s.foldl parseSpecifiersStep ([], [], (0 : Int))
  if pyStrip current ≠ [] then result ++ [pyStrip current] else result

/- ===========================================================================
Interface-name heuristic and base-type partition
`src/Content/Python/unreal_copilot/cpp_analyzer/analyzer.py`,
`CppAnalyzer._is_interface_name` and `_extract_class_info`;
`src/MCP/src/unreal_analyzer/cpp_analyzer/analyzer.py`,
`CppAnalyzer._extract_class_info`
=========================================================================== -/

/-- `CppAnalyzer._is_interface_name` (Content analyzer): a name is treated as
an interface when it starts with `I` followed by an uppercase letter, or ends
in `Interface`. -/
def is_interface_name (name : PyStr) : Bool :=
  if name = [] then false
  else if 2 ≤ name.length ∧ name.getD 0 ' ' = 'I' ∧ (name.getD 1 ' ').isUpper then true
  else if pyEndsWith name ("Interface").data then true
  else false

/-- The superclass/interface partition of the base-type list performed by the
Content analyzer's `_extract_class_info` (the loop appending each base to one
of the two lists). Returns `(superclasses, interfaces)`. -/
def partitionBases (baseTypes : List PyStr) : List PyStr × List PyStr :=
  baseTypes.foldl
    (fun (acc : List PyStr × List PyStr) base =>
      if is_interface_name base then (acc.1, acc.2 ++ [base])
      else (acc.1 ++ [base], acc.2))
    ([], [])

/-- The superclass/interface partition performed by the MCP analyzer's
`_extract_class_info`: a bare `startswith("I")` test. -/
def partitionBasesMcp (baseTypes : List PyStr) : List PyStr × List PyStr :=
  (baseTypes.filter (fun b => ¬ pyStartsWith b ("I").data),
   baseTypes.filter (fun b => pyStartsWith b ("I").data))

/- ===========================================================================
Scope and path resolver
`src/Content/Python/unreal_copilot/config.py`
=========================================================================== -/

/-- `SourceType`: kind tag of a configured source root. -/
inductive SourceType where
  | projectSource
  | projectPlugin
  | engineSource
  | enginePlugin
deriving DecidableEq, Repr

/-- `SearchScope`: logical search scope. -/
inductive SearchScope where
  | project
  | engine
  | plugin
  | all
deriving DecidableEq, Repr

/-- `SourceConfig`: a configured source root with its kind tag (the display
label plays no role in the verified operations and is omitted). -/
structure SourceConfig where
  path : PyPath
  sourceType : SourceType
deriving DecidableEq, Repr

/-- `SourceConfig.is_plugin`. -/
def SourceConfig.isPlugin (cfg : SourceConfig) : Bool :=
  cfg.sourceType = SourceType.projectPlugin || cfg.sourceType = SourceType.enginePlugin

/-- `Config`: the fields of the settings object that the analyzer's query
surface reads (source roots and the default scope). -/
structure Config where
  sourceConfigs : List SourceConfig
  defaultScope : SearchScope := SearchScope.project
deriving DecidableEq, Repr

/-- `Config.get_source_paths(scope)`: roots filtered by scope, `None` falling
back to the configured default scope. -/
def Config.getSourcePaths (cfg : Config) (scope : Option SearchScope) : List PyPath :=
  let scope := scope.getD cfg.defaultScope
  match scope with
  | SearchScope.all => cfg.sourceConfigs.map (·.path)
  | SearchScope.plugin => (cfg.sourceConfigs.filter (·.isPlugin)).map (·.path)
  | SearchScope.engine =>
    (cfg.sourceConfigs.filter (fun c =>
      c.sourceType = SourceType.engineSource || c.sourceType = SourceType.enginePlugin)).map (·.path)
  | SearchScope.project =>
    (cfg.sourceConfigs.filter (fun c =>
      c.sourceType = SourceType.projectSource || c.sourceType = SourceType.projectPlugin)).map (·.path)

/-- `Config.get_project_paths()`. -/
def Config.getProjectPaths (cfg : Config) : List PyPath :=
  cfg.getSourcePaths (some SearchScope.project)

/-- `Config.get_engine_paths()`. -/
def Config.getEnginePaths (cfg : Config) : List PyPath :=
  cfg.getSourcePaths (some SearchScope.engine)

/-- `Config.get_plugin_paths()`. -/
def Config.getPluginPaths (cfg : Config) : List PyPath :=
  cfg.getSourcePaths (some SearchScope.plugin)

/-- The analyzer's legacy `_custom_path` / `_unreal_path` fields used by the
fallback branch of `CppAnalyzer._get_search_paths`. -/
structure LegacyPaths where
  customPath : Option PyPath := none
  unrealPath : Option PyPath := none
deriving DecidableEq, Repr

/-- `CppAnalyzer._get_search_paths(scope, source_path)`: an explicit source
path overrides everything; otherwise the configured scope roots, falling back
to the legacy custom/engine paths when the scope resolves to nothing. -/
def getSearchPaths (cfg : Config) (lp : LegacyPaths) (scope : Option SearchScope)
    (sourcePath : Option PyPath) : List PyPath :=
  match sourcePath with
  | some p => [p]
  | none =>
    let paths := cfg.getSourcePaths scope
    if paths = [] then
      (match lp.customPath with | some c => [c] | none => []) ++
      (match lp.unrealPath with | some u => [u] | none => [])
    else paths

/- ===========================================================================
Parse/extraction cache
`src/Content/Python/unreal_copilot/cpp_analyzer/analyzer.py`,
`CppAnalyzer.__init__`, `_manage_cache`, `_parse_file`,
`_extract_classes_from_tree`
=========================================================================== -/

/-- Ordered dictionary lookup (`key in d` / `d[key]`). -/
def dictGet (d : List (String × α)) (k : String) : Option α :=
  match d with
  | [] => none
  | (k', v) :: t => if k' = k then some v else dictGet t k

/-- Ordered dictionary store `d[k] = v`: overwrite in place when the key is
present, append otherwise (Python dicts preserve insertion order). -/
def dictInsert (d : List (String × α)) (k : String) (v : α) : List (String × α) :=
  if (dictGet d k).isSome then
    d.map (fun p => if p.1 = k then (k, v) else p)
  else d ++ [(k, v)]

/-- `d.pop(k, None)`: remove the entry with key `k` when present. -/
def dictErase (d : List (String × α)) (k : String) : List (String × α) :=
  d.filter (fun p => ¬ p.1 = k)

/-- The analyzer's mutable cache state: class cache, ast cache, the shared
insertion-order queue and the maximum size (`τ` is the opaque type of parsed
syntax trees, `κ` that of extracted class records; the Python caches are
heterogeneous dictionaries). -/
structure AnalyzerState (τ κ : Type) where
  classCache : List (String × κ)
  astCache : List (String × τ)
  cacheQueue : List String
  maxCacheSize : Nat
deriving DecidableEq, Repr

/-- `CppAnalyzer.__init__`: empty caches, empty queue, bound 1000. -/
def initAnalyzerState : AnalyzerState τ κ :=
  { classCache := [], astCache := [], cacheQueue := [], maxCacheSize := 1000 }

/-- `CppAnalyzer._manage_cache(cache, key, value)` acting on one cache
dictionary together with the shared queue: evict the front of the queue from
the dictionary when it is at or over the bound, then store and enqueue the
new key. Returns the updated dictionary and queue. -/
def manageCache (maxSize : Nat) (cache : List (String × α)) (queue : List String)
    (key : String) (value : α) : List (String × α) × List String :=
  let (cache, queue) :=
    if maxSize ≤ cache.length then
      match queue with
      | [] => (cache, queue)
      | oldest :: rest => (dictErase cache oldest, rest)
    else (cache, queue)
  (dictInsert cache key value, queue ++ [key])

/-- The cache effect of `CppAnalyzer._parse_file(file_path)`: a hit leaves the
state unchanged; a miss parses (the tree is the opaque `tree` argument) and
stores the tree through `_manage_cache`. -/
def parseFileCache (st : AnalyzerState τ κ) (filePath : String) (tree : τ) :
    AnalyzerState τ κ :=
  if (dictGet st.astCache filePath).isSome then st
  else
    let (c, q) := manageCache st.maxCacheSize st.astCache st.cacheQueue filePath tree
    { st with astCache := c, cacheQueue := q }

/-- The class-cache effect of `CppAnalyzer._extract_classes_from_tree`: each
extracted class is stored by `self._class_cache[class_name] = class_info`,
directly, without `_manage_cache`. -/
def classCacheInsert (st : AnalyzerState τ κ) (className : String) (info : κ) :
    AnalyzerState τ κ :=
  { st with classCache := dictInsert st.classCache className info }

/- ===========================================================================
Stable sorting (Python `list.sort` is stable)
=========================================================================== -/

/-- Stable insertion: `x` moves past exactly the elements that are strictly
before it under `lt`, so equal elements keep their original relative order. -/
def stableInsert (lt : α → α → Bool) (x : α) : List α → List α
  | [] => [x]
  | y :: ys => if lt y x then y :: stableInsert lt x ys else x :: y :: ys

/-- Stable sort by the strict-order `lt` (the model of Python `list.sort`
with a key function). -/
def stableSort (lt : α → α → Bool) (l : List α) : List α :=
  l.foldr (stableInsert lt) []

theorem stableInsert_perm (lt : α → α → Bool) (x : α) (l : List α) :
    (stableInsert lt x l).Perm (x :: l) := by
  induction l with
  | nil => simp [stableInsert]
  | cons y ys ih =>
    simp only [stableInsert]
    split
    · exact ((ih.cons y).trans (List.Perm.swap x y ys))
    · exact List.Perm.refl _

theorem stableSort_perm (lt : α → α → Bool) (l : List α) :
    (stableSort lt l).Perm l := by
  induction l with
  | nil => simp [stableSort]
  | cons x xs ih =>
    have h1 := stableInsert_perm lt x (stableSort lt xs)
    exact h1.trans (ih.cons x)

theorem mem_stableSort (lt : α → α → Bool) (l : List α) (a : α) :
    a ∈ stableSort lt l ↔ a ∈ l :=
  (stableSort_perm lt l).mem_iff

theorem stableInsert_pairwise (lt : α → α → Bool)
    (hasym : ∀ a b, lt a b = true → lt b a = false)
    (hnegtrans : ∀ a b c, lt a b = false → lt b c = false → lt a c = false)
    (x : α) (l : List α)
    (hl : l.Pairwise (fun a b => lt b a = false)) :
    (stableInsert lt x l).Pairwise (fun a b => lt b a = false) := by
  induction l with
  | nil => simp [stableInsert]
  | cons y ys ih =>
    rcases List.pairwise_cons.mp hl with ⟨hy, hys⟩
    simp only [stableInsert]
    split
    · rename_i hlt
      refine List.pairwise_cons.mpr ⟨?_, ih hys⟩
      intro z hz
      rcases List.mem_cons.mp ((stableInsert_perm lt x ys).mem_iff.mp hz) with rfl | hzys
      · exact hasym y z hlt
      · exact hy z hzys
    · rename_i hnlt
      have hnlt' : lt y x = false := by
        cases h : lt y x
        · rfl
        · exact absurd h hnlt
      refine List.pairwise_cons.mpr ⟨?_, hl⟩
      intro z hz
      rcases List.mem_cons.mp hz with rfl | hzys
      · exact hnlt'
      · exact hnegtrans z y x (hy z hzys) hnlt'

theorem stableSort_pairwise (lt : α → α → Bool)
    (hasym : ∀ a b, lt a b = true → lt b a = false)
    (hnegtrans : ∀ a b c, lt a b = false → lt b c = false → lt a c = false)
    (l : List α) :
    (stableSort lt l).Pairwise (fun a b => lt b a = false) := by
  induction l with
  | nil => simp [stableSort]
  | cons x xs ih => exact stableInsert_pairwise lt hasym hnegtrans x (stableSort lt xs) ih

/- ===========================================================================
Search engine
`src/Content/Python/unreal_copilot/cpp_analyzer/analyzer.py`,
`CppAnalyzer.search_code`
=========================================================================== -/

/-- The in-memory model of the filesystem walked by the search: each file is a
resolved path together with the lines of `read_text(...).split("\n")`. -/
abbrev FileSys := List (PyPath × List PyStr)

/-- `query_mode` argument values. -/
inductive QueryMode where
  | regex
  | tokens
  | smart
deriving DecidableEq, Repr

/-- One entry of the `matches` list built by `search_code` (regex-mode entries
carry no `matched_terms` key, modelled by the empty default). -/
structure SearchMatch where
  file : PyPath
  line : Nat
  column : Nat
  context : PyStr
  matchedTerms : List PyStr := []
  score : Nat
deriving DecidableEq, Repr

/-- The dictionary returned by `search_code` (keys that some return paths do
not set are modelled with `Option`/defaults). -/
structure SearchResult where
  matches' : List SearchMatch
  count : Nat
  error : Option PyStr := none
  scopeArg : Option SearchScope
  searchedPaths : List PyPath
  truncated : Option Bool := none
  queryMode : QueryMode
  queryModeResolved : Option QueryMode := none
deriving DecidableEq, Repr

/-- The `_looks_like_regex` heuristic: the query contains a character from
the regex metacharacter set. -/
def looksLikeRegex (q : PyStr) : Bool :=
  q.any (fun c =>
    c = '\\' || c = '.' || c = '^' || c = '$' || c = '*' || c = '+' || c = '?' ||
    c = '\x7b' || c = '\x7d' || c = '[' || c = ']' || c = '|' || c = '(' || c = ')')

/-- The scope normalisation performed at the top of `search_code` (`None`
falls back to the configured default scope; the argument type admits only
valid scope literals, so the string-parse fallback branch is not reachable). -/
def normalizeScope (cfg : Config) (scope : Option SearchScope) : SearchScope :=
  match scope with
  | none => cfg.defaultScope
  | some s => s

/-- File-pattern expansion: `"*.{h,cpp}"` becomes `["*.h", "*.cpp"]`, a
pattern without `{` is used as is. -/
def parseFilePatterns (filePattern : PyStr) : List PyStr :=
  if pyContainsChar '\x7b' filePattern then
    let base := filePattern.takeWhile (· ≠ '\x7b')
    let extPart := (filePattern.dropWhile (· ≠ '\x7b')).drop 1
    let extensions := pySplitOnChar ',' (extPart.reverse.dropWhile (· = '\x7d')).reverse
    extensions.map (fun ext => base ++ ext)
  else [filePattern]

/-- `base.rglob(f"*{pattern.replace('*', '')}")` on the filesystem model: the
files under `base` whose final component ends with the pattern stripped of
`*`. -/
def rglobFiles (fs : FileSys) (base : PyPath) (pat : PyStr) : FileSys :=
  let suffix := pat.filter (· ≠ '*')
  fs.filter (fun f => decide (base <+: f.1) && pyEndsWith (f.1.getLastD []) suffix)

/-- The nested `for base_path ... for pattern ... for file_path` walk order of
`search_code` (a file reachable from two bases or matching two patterns is
visited repeatedly, exactly as in the Python loops). -/
def walkFiles (fs : FileSys) (searchPaths : List PyPath) (patterns : List PyStr) : FileSys :=
  searchPaths.flatMap (fun base => patterns.flatMap (fun pat => rglobFiles fs base pat))

/-- The run-time matcher after mode resolution: a compiled regex (an oracle
for Python `re`) or the token list. -/
inductive Matcher where
  | regex (test : PyStr → Bool)
  | tokens (toks : List PyStr)

/-- `[t for t in tokens if t.lower() in lower_line]`. -/
def matchedTokens (toks : List PyStr) (lowerLine : PyStr) : List PyStr :=
  toks.filter (fun t => pyContainsSub (pyLower t) lowerLine)

/-- The per-line body of the search loop: skip comment lines when requested,
test the line, and append a match record (with the ±2-line context window)
unless the result list is already at the cap. -/
def scanLineStep (m : Matcher) (includeComments : Bool) (maxResults : Nat)
    (file : PyPath) (lines : List PyStr) (acc : List SearchMatch) (i : Nat) :
    List SearchMatch :=
  if maxResults ≤ acc.length then acc
  else
    let line := lines.getD i []
    if ¬ includeComments ∧
        (pyStartsWith (pyStrip line) ("//").data ∨ pyStartsWith (pyStrip line) ("/*").data) then
      acc
    else
      match m with
      | Matcher.regex test =>
        if test line then
          acc ++ [{ file := file, line := i + 1, column := 1,
                    context := pyJoinLines (pySlice lines (i - 2) (i + 3)), score := 1 }]
        else acc
      | Matcher.tokens toks =>
        let lowerLine := pyLower line
        let matched := matchedTokens toks lowerLine
        match matched with
        | [] => acc
        | first :: _ =>
          let col := pyFindSub (pyLower first) lowerLine
          acc ++ [{ file := file, line := i + 1,
                    column := match col with | some c => c + 1 | none => 1,
                    context := pyJoinLines (pySlice lines (i - 2) (i + 3)),
                    matchedTerms := matched, score := matched.length }]

/-- Scan one file's lines in order (the inner `for i, line in enumerate(lines)`
loop). -/
def scanFile (m : Matcher) (includeComments : Bool) (maxResults : Nat)
    (acc : List SearchMatch) (f : PyPath × List PyStr) : List SearchMatch :=
  if maxResults ≤ acc.length then acc
  else (List.range f.2.length).foldl (scanLineStep m includeComments maxResults f.1 f.2) acc

/-- The post-hoc safety filter helper `_is_under_any_root` (paths are already
resolved in the model, so `Path.resolve` is the identity and the
`is_relative_to` fallback branch is unreachable). -/
def isUnderAnyRoot (p : PyPath) (roots : List PyPath) : Bool :=
  roots.any (fun r => decide (r <+: p))

/-- The raw (unsorted, unfiltered) match list of the walk-and-scan loops of
`search_code`. -/
def searchResultsRaw (fs : FileSys) (searchPaths : List PyPath) (filePattern : PyStr)
    (includeComments : Bool) (maxResults : Nat) (m : Matcher) : List SearchMatch :=
  (walkFiles fs searchPaths (parseFilePatterns filePattern)).foldl
    (scanFile m includeComments maxResults) []

/-- The token-mode descending-score sort (`results.sort(key=score,
reverse=True)`, a stable sort); other modes leave the list untouched. -/
def sortIfTokens (queryModeResolved : QueryMode) (results : List SearchMatch) :
    List SearchMatch :=
  if queryModeResolved = QueryMode.tokens then
    stableSort (fun a b => decide (b.score < a.score)) results
  else results

/-- The post-hoc scope safety filter of `search_code`: keep only matches whose
file is contained under a root of the *requested* scope; `all` keeps
everything. -/
def scopeFilter (cfg : Config) (normScope : SearchScope) (results : List SearchMatch) :
    List SearchMatch :=
  match normScope with
  | SearchScope.project =>
    results.filter (fun r => isUnderAnyRoot r.file cfg.getProjectPaths)
  | SearchScope.engine =>
    results.filter (fun r => isUnderAnyRoot r.file cfg.getEnginePaths)
  | SearchScope.plugin =>
    results.filter (fun r => isUnderAnyRoot r.file cfg.getPluginPaths)
  | SearchScope.all => results

/-- The mode resolution at the top of `search_code` (`smart` picks regex only
for queries containing regex metacharacters). -/
def resolveQueryMode (queryMode : QueryMode) (loweredQuery : PyStr) : QueryMode :=
  match queryMode with
  | QueryMode.smart =>
    if loweredQuery = [] then QueryMode.tokens
    else if looksLikeRegex loweredQuery then QueryMode.regex
    else if loweredQuery.any pyIsSpace then QueryMode.tokens
    else QueryMode.tokens
  | QueryMode.tokens => QueryMode.tokens
  | QueryMode.regex => QueryMode.regex

/-- The main (non-early-return) path of `search_code`: walk, scan, sort (token
mode), scope-filter, and build the result dictionary. -/
def searchRun (fs : FileSys) (cfg : Config)
    (filePattern : PyStr) (includeComments : Bool)
    (scope : Option SearchScope) (maxResults : Nat) (queryMode : QueryMode)
    (searchPaths : List PyPath) (queryModeResolved : QueryMode) (m : Matcher) :
    SearchResult :=
  let results :=
    scopeFilter cfg (normalizeScope cfg scope)
      (sortIfTokens queryModeResolved
        (searchResultsRaw fs searchPaths filePattern includeComments maxResults m))
  { matches' := results, count := results.length, scopeArg := scope,
    searchedPaths := searchPaths,
    truncated := some (decide (maxResults ≤ results.length)),
    queryMode := queryMode, queryModeResolved := some queryModeResolved }

/-- `CppAnalyzer.search_code`. `compile` is the oracle for
`re.compile(query, re.IGNORECASE)` returning a per-line `search` test, or the
stringified `re.error`. -/
def searchCode (compile : PyStr → Except PyStr (PyStr → Bool))
    (fs : FileSys) (cfg : Config) (lp : LegacyPaths)
    (query : PyStr) (filePattern : PyStr) (includeComments : Bool)
    (scope : Option SearchScope) (maxResults : Nat) (queryMode : QueryMode) :
    SearchResult :=
  if getSearchPaths cfg lp scope none = [] then
    { matches' := [], count := 0, scopeArg := scope, searchedPaths := [],
      queryMode := queryMode }
  else
    match resolveQueryMode queryMode (pyStrip query) with
    | QueryMode.regex =>
      match compile query with
      | Except.error e =>
        { matches' := [], count := 0, error := some (("Invalid regex: ").data ++ e),
          scopeArg := scope, searchedPaths := getSearchPaths cfg lp scope none,
          queryMode := queryMode }
      | Except.ok test =>
        searchRun fs cfg filePattern includeComments scope maxResults queryMode
          (getSearchPaths cfg lp scope none) QueryMode.regex (Matcher.regex test)
    | queryModeResolved =>
      if pySplitWs (pyStrip query) = [] then
        { matches' := [], count := 0, scopeArg := scope,
          searchedPaths := getSearchPaths cfg lp scope none, queryMode := queryMode }
      else
        searchRun fs cfg filePattern includeComments scope maxResults queryMode
          (getSearchPaths cfg lp scope none) queryModeResolved
          (Matcher.tokens (pySplitWs (pyStrip query)))

/- ===========================================================================
Hierarchy builder
`src/Content/Python/unreal_copilot/cpp_analyzer/analyzer.py`,
`CppAnalyzer.find_class_hierarchy`
=========================================================================== -/

/-- The part of a resolved class record that the hierarchy builder reads
(`analyze_class(...)["superclasses"] / ["interfaces"]`). -/
structure ClassView where
  superclasses : List String
  interfaces : List String
deriving DecidableEq, Repr

/-- A `ClassHierarchy` node (`class_name`, recursively built `superclasses`,
`interfaces`). -/
inductive Hier where
  | node (className : String) (superclasses : List Hier) (interfaces : List String)
deriving Repr

/-- The `superclasses` children of a node. -/
def Hier.children : Hier → List Hier
  | Hier.node _ s _ => s

/-- The class name of a node. -/
def Hier.name : Hier → String
  | Hier.node n _ _ => n

/-- The interface list of a node. -/
def Hier.intfs : Hier → List String
  | Hier.node _ _ i => i

/-- The rebuild of a recursive result performed inside the superclass loop of
`find_class_hierarchy`: the child keeps its name and interfaces, and each of
its own superclass dictionaries is rebuilt as a node with *no* further
children (deeper levels of the recursive result are dropped). -/
def rebuildChild : Hier → Hier
  | Hier.node n supers intf =>
    Hier.node n (supers.map (fun s => Hier.node s.name [] s.intfs)) intf

/-- One pass of `find_class_hierarchy` over the superclass-name list, with the
recursive call supplied as `get`. A `none` from `get` (the fuel ran out, i.e.
the recursion did not terminate within the modelled depth) propagates. -/
def hierFold (get : String → Option Hier) : List String → Option (List Hier)
  | [] => some []
  | sc :: rest =>
    match get sc with
    | none => none
    | some h =>
      match hierFold get rest with
      | none => none
      | some t => some (rebuildChild h :: t)

/-- `find_class_hierarchy(class_name, include_interfaces, scope)`, with class
resolution abstracted as `resolve` (the composition of the class cache and the
scoped file search performed by `analyze_class`; `none` models the
`ValueError` of a class that cannot be found) and recursion depth modelled by
`fuel`: `none` means the recursion did not finish within `fuel` levels. -/
def findClassHierarchy (resolve : String → Option ClassView) (includeInterfaces : Bool) :
    Nat → String → Option Hier
  | 0, _ => none
  | fuel + 1, className =>
    match resolve className with
    | none => some (Hier.node className [] [])
    | some info =>
      match hierFold (fun sc => findClassHierarchy resolve includeInterfaces fuel sc)
          info.superclasses with
      | none => none
      | some supers =>
        some (Hier.node className supers (if includeInterfaces then info.interfaces else []))

/- ===========================================================================
Reference aggregator
`src/MCP/src/unreal_analyzer/tools/cross_domain.py`,
`_aggregate_cpp_references`
=========================================================================== -/

/-- A raw match consumed by the aggregator (`file`, `line`, `context` keys of
a `find_references` match). -/
structure RawMatch where
  file : PyStr
  line : Nat
  context : PyStr
deriving DecidableEq, Repr

/-- One aggregated per-file entry. Definition-file entries carry a `note` and
no `sample_lines`; usage entries carry `sample_lines` and a `truncated` flag
when more matches exist. -/
structure AggEntry where
  file : PyStr
  isDefinition : Bool
  matchCount : Nat
  lineRanges : List PyStr
  sampleLines : List (Nat × PyStr) := []
  truncated : Bool := false
  note : Option PyStr := none
deriving DecidableEq, Repr

/-- Group matches by their `file` key, in first-seen order, skipping matches
with an empty file (the Python `dict`-based grouping loop). -/
def groupByFile (ms : List RawMatch) : List (PyStr × List RawMatch) :=
  ms.foldl
    (fun acc m =>
      if m.file = [] then acc
      else if acc.any (fun g => g.1 = m.file) then
        acc.map (fun g => if g.1 = m.file then (g.1, g.2 ++ [m]) else g)
      else acc ++ [(m.file, [m])])
    []

/-- The framework prefix strip: drop one leading `U/A/F/I/E/T/S` character. -/
def strippedName (className : PyStr) : PyStr :=
  match className with
  | c :: rest =>
    if c = 'U' ∨ c = 'A' ∨ c = 'F' ∨ c = 'I' ∨ c = 'E' ∨ c = 'T' ∨ c = 'S' then rest
    else className
  | [] => className

/-- The definition-file test of `_aggregate_cpp_references`: stem equality
with the identifier or its stripped form, or `"<stripped>.h"` /
`"<stripped>.cpp"` occurring inside the file name. -/
def isDefinitionFile (className filePath : PyStr) : Bool :=
  let fileName := pyPathName filePath
  let stem := pyStem fileName
  let stripped := strippedName className
  if stem = className ∨ stem = stripped then true
  else if pyContainsSub (stripped ++ (".h").data) fileName ∨
          pyContainsSub (stripped ++ (".cpp").data) fileName then true
  else false

/-- Merge the (sorted) match lines into ranges, fusing lines within 3 of the
current range end. -/
def mergeLineRanges (lines : List Nat) : List (Nat × Nat) :=
  let step := fun (acc : List (Nat × Nat) × Option (Nat × Nat)) (line : Nat) =>
    match acc.2 with
    | none => (acc.1, some (line, line))
    | some (s, e) =>
      if line ≤ e + 3 then (acc.1, some (s, line))
      else (acc.1 ++ [(s, e)], some (line, line))
  match lines.foldl step ([], none) with
  | (ranges, none) => ranges
  | (ranges, some r) => ranges ++ [r]

/-- Format a line range as the Python f-string does. -/
def formatRange (r : Nat × Nat) : PyStr :=
  if r.1 ≠ r.2 then pyNat r.1 ++ '-' :: pyNat r.2 else pyNat r.1

/-- The per-file aggregation body of `_aggregate_cpp_references`. -/
def aggregateEntry (className : PyStr) (maxLinesPerFile : Nat)
    (g : PyStr × List RawMatch) : AggEntry :=
  let isDef := isDefinitionFile className g.1
  let sorted := stableSort (fun a b => decide (a.line < b.line)) g.2
  let ranges := (mergeLineRanges (sorted.map (·.line))).map formatRange
  let total := sorted.length
  if isDef then
    { file := g.1, isDefinition := true, matchCount := total, lineRanges := ranges,
      note := some (("Class definition file (").data ++ pyNat total ++
        (" references, likely self-references)").data) }
  else
    { file := g.1, isDefinition := false, matchCount := total, lineRanges := ranges,
      sampleLines := (sorted.take maxLinesPerFile).map
        (fun m => (m.line, ((pySplitOnChar '\n' m.context).headD []).take 100)),
      truncated := decide (maxLinesPerFile < total) }

/-- The strict order of the final `aggregated.sort(key=(is_definition,
-match_count))`: `y` sorts strictly before `x`. -/
def aggBefore (y x : AggEntry) : Bool :=
  (¬ y.isDefinition ∧ x.isDefinition) ∨
  (y.isDefinition = x.isDefinition ∧ x.matchCount < y.matchCount)

/-- `_aggregate_cpp_references(matches, class_name, max_lines_per_file)`. -/
def aggregate_cpp_references (ms : List RawMatch) (className : PyStr)
    (maxLinesPerFile : Nat) : List AggEntry :=
  stableSort aggBefore ((groupByFile ms).map (aggregateEntry className maxLinesPerFile))

/- ===========================================================================
Supporting lemmas
=========================================================================== -/

theorem partitionBases_go (l : List PyStr) (a b : List PyStr) :
    l.foldl
      (fun (acc : List PyStr × List PyStr) base =>
        if is_interface_name base then (acc.1, acc.2 ++ [base])
        else (acc.1 ++ [base], acc.2))
      (a, b) =
    (a ++ l.filter (fun x => ! is_interface_name x), b ++ l.filter is_interface_name) := by
  induction l generalizing a b with
  | nil => simp
  | cons x xs ih =>
    simp only [List.foldl_cons, List.filter_cons]
    cases h : is_interface_name x with
    | true => simp [h, ih]
    | false => simp [h, ih]

theorem partitionBases_eq (baseTypes : List PyStr) :
    partitionBases baseTypes =
      (baseTypes.filter (fun x => ! is_interface_name x),
       baseTypes.filter is_interface_name) := by
  unfold partitionBases
  simpa using partitionBases_go baseTypes [] []

/- ===========================================================================
Claims
=========================================================================== -/

/-- C3 counterexample: on the input `Category="A, B", EditAnywhere` the code's
`parse_specifiers` splits at the comma inside the double quotes (only
parenthesis depth is tracked) and returns three specifiers, not the two the
claim requires. -/
theorem C3_counterexample :
    parse_specifiers ("Category=\"A, B\", EditAnywhere").data =
      [("Category=\"A").data, ("B\"").data, ("EditAnywhere").data] ∧
    (parse_specifiers ("Category=\"A, B\", EditAnywhere").data).length ≠ 2 := by
  constructor
  · decide
  · decide

/-- C3 (amended): `parse_specifiers` splits an annotation argument string on
top-level commas with respect to parenthesis nesting only: a comma inside
nested parentheses is not a separator, so `Category=(A, B), EditAnywhere`
yields exactly the two specifiers `Category=(A, B)` and `EditAnywhere` (and a
plain list splits at every comma); double quotes are not tracked, so a comma
inside quotes at parenthesis depth zero does separate. -/
theorem C3_parse_specifiers_paren_depth :
    parse_specifiers ("Category=(A, B), EditAnywhere").data =
      [("Category=(A, B)").data, ("EditAnywhere").data] ∧
    (parse_specifiers ("Category=(A, B), EditAnywhere").data).length = 2 ∧
    parse_specifiers ("EditAnywhere, BlueprintReadWrite").data =
      [("EditAnywhere").data, ("BlueprintReadWrite").data] := by
  refine ⟨by decide, by decide, by decide⟩

/-- C8 counterexample: the base name `Item` has a leading capital `I`, yet the
Content analyzer's `_is_interface_name` rejects it (the next character must be
uppercase), so the extraction loop puts it among the superclasses, not the
interfaces — refuting the claim that a leading capital `I` alone means
interface. -/
theorem C8_counterexample :
    ("Item").data.headD ' ' = 'I' ∧
    is_interface_name ("Item").data = false ∧
    partitionBases [("Item").data] = ([("Item").data], []) := by
  refine ⟨by decide, by decide, by decide⟩

/-- C8 (amended): class extraction partitions the base-type names by
`_is_interface_name`: a base is an interface iff it starts with a capital `I`
*followed by an uppercase letter*, or ends in `Interface` (the MCP analyzer
variant instead tests a bare leading `I`). In particular for
`class AHealth : public AActor, public IDamageable` both analyzers return
superclasses `["AActor"]` and interfaces `["IDamageable"]`. -/
theorem C8_base_type_partition :
    (∀ baseTypes : List PyStr,
      partitionBases baseTypes =
        (baseTypes.filter (fun x => ! is_interface_name x),
         baseTypes.filter is_interface_name)) ∧
    partitionBases [("AActor").data, ("IDamageable").data] =
      ([("AActor").data], [("IDamageable").data]) ∧
    partitionBasesMcp [("AActor").data, ("IDamageable").data] =
      ([("AActor").data], [("IDamageable").data]) := by
  refine ⟨partitionBases_eq, by decide, by decide⟩

theorem hierFold_mem (get : String → Option Hier) (l : List String) (out : List Hier)
    (hfold : hierFold get l = some out) (x : String) (hx : x ∈ l) :
    ∃ h, get x = some h ∧ rebuildChild h ∈ out := by
  induction l generalizing out with
  | nil => cases hx
  | cons y rest ih =>
    simp only [hierFold] at hfold
    cases hg : get y with
    | none => rw [hg] at hfold; cases hfold
    | some hy =>
      rw [hg] at hfold
      cases hr : hierFold get rest with
      | none => rw [hr] at hfold; cases hfold
      | some t =>
        rw [hr] at hfold
        cases hfold
        rcases List.mem_cons.mp hx with rfl | hmem
        · exact ⟨hy, hg, List.mem_cons_self _ _⟩
        · rcases ih t hr hmem with ⟨h, hget, hout⟩
          exact ⟨h, hget, List.mem_cons_of_mem _ hout⟩

theorem hierFold_isSome (get : String → Option Hier) (l : List String)
    (hall : ∀ x ∈ l, (get x).isSome) : (hierFold get l).isSome := by
  induction l with
  | nil => simp [hierFold]
  | cons y rest ih =>
    simp only [hierFold]
    cases hg : get y with
    | none =>
      have := hall y (List.mem_cons_self _ _)
      rw [hg] at this
      cases this
    | some hy =>
      have htail := ih (fun x hx => hall x (List.mem_cons_of_mem _ hx))
      cases hr : hierFold get rest with
      | none => rw [hr] at htail; cases htail
      | some t => simp

theorem hierFold_none_of_mem (get : String → Option Hier) (l : List String)
    (x : String) (hx : x ∈ l) (hnone : get x = none) : hierFold get l = none := by
  induction l with
  | nil => cases hx
  | cons y rest ih =>
    simp only [hierFold]
    cases hg : get y with
    | none => rfl
    | some hy =>
      rcases List.mem_cons.mp hx with rfl | hmem
      · rw [hg] at hnone; cases hnone
      · rw [ih hmem]

/-- C7: when a superclass name cannot be resolved, `find_class_hierarchy`
returns that superclass as a leaf node carrying its name and no children
(rather than raising): the recursive call on an unresolvable name yields the
bare leaf, and any successfully built hierarchy of a class with an
unresolvable superclass contains that leaf among its children. -/
theorem C7_missing_superclass_is_leaf :
    (∀ (resolve : String → Option ClassView) (incl : Bool) (fuel : Nat) (sc : String),
      resolve sc = none →
      findClassHierarchy resolve incl (fuel + 1) sc = some (Hier.node sc [] [])) ∧
    (∀ (resolve : String → Option ClassView) (incl : Bool) (fuel : Nat)
      (className : String) (info : ClassView) (sc : String) (h : Hier),
      resolve className = some info → sc ∈ info.superclasses → resolve sc = none →
      findClassHierarchy resolve incl fuel className = some h →
      Hier.node sc [] [] ∈ h.children) := by
  constructor
  · intro resolve incl fuel sc hnone
    simp [findClassHierarchy, hnone]
  · intro resolve incl fuel className info sc h hres hmem hnone hfind
    cases fuel with
    | zero => cases hfind
    | succ f =>
      simp only [findClassHierarchy, hres] at hfind
      cases hfold : hierFold
          (fun sc => findClassHierarchy resolve incl f sc) info.superclasses with
      | none => rw [hfold] at hfind; cases hfind
      | some supers =>
        rw [hfold] at hfind
        cases hfind
        rcases hierFold_mem _ _ _ hfold sc hmem with ⟨hx, hget, hout⟩
        cases f with
        | zero => cases hget
        | succ g =>
          simp only [findClassHierarchy, hnone] at hget
          cases hget
          simpa [rebuildChild, Hier.children] using hout

/-- A concrete resolution map for the witness: `AHealth` extends `AActor` and
implements `IDamageable`; `AActor` is outside the indexed roots. -/
def resolveHealth : String → Option ClassView := fun n =>
  if n = "AHealth" then some ⟨["AActor"], ["IDamageable"]⟩ else none

theorem C7_missing_superclass_is_leaf_witness :
    resolveHealth "AActor" = none ∧
    findClassHierarchy resolveHealth true 1 "AActor" = some (Hier.node "AActor" [] []) ∧
    Hier.node "AActor" [] [] ∈
      (Hier.node "AHealth" [Hier.node "AActor" [] []] ["IDamageable"]).children := by
  refine ⟨by decide, C7_missing_superclass_is_leaf.1 resolveHealth true 0 "AActor" (by decide), ?_⟩
  exact C7_missing_superclass_is_leaf.2 resolveHealth true 5 "AHealth"
    ⟨["AActor"], ["IDamageable"]⟩ "AActor"
    (Hier.node "AHealth" [Hier.node "AActor" [] []] ["IDamageable"])
    (by decide) (by decide) (by decide) (by rfl)

/-- C9: `find_class_hierarchy` recurses naively over superclass names with no
visited-set. If the superclass-resolution graph is acyclic — witnessed by a
rank function that strictly decreases from a class to each of its resolved
superclasses — the recursion terminates (any fuel above the start rank
suffices). If instead two classes resolve to each other as superclasses (a
base resolving back to an ancestor), no amount of fuel completes the
recursion: it is unbounded. -/
theorem C9_hierarchy_recursion_termination :
    (∀ (resolve : String → Option ClassView) (incl : Bool) (rank : String → Nat),
      (∀ n info, resolve n = some info → ∀ sc ∈ info.superclasses, rank sc < rank n) →
      ∀ (className : String) (fuel : Nat), rank className < fuel →
      (findClassHierarchy resolve incl fuel className).isSome) ∧
    (∀ (resolve : String → Option ClassView) (incl : Bool) (a b : String)
      (infoA infoB : ClassView),
      resolve a = some infoA → b ∈ infoA.superclasses →
      resolve b = some infoB → a ∈ infoB.superclasses →
      ∀ fuel, findClassHierarchy resolve incl fuel a = none) := by
  constructor
  · intro resolve incl rank hrank className fuel
    induction fuel generalizing className with
    | zero => intro h; cases h
    | succ f ih =>
      intro hlt
      cases hres : resolve className with
      | none => simp [findClassHierarchy, hres]
      | some info =>
        simp only [findClassHierarchy, hres]
        have hall : ∀ sc ∈ info.superclasses,
            ((fun sc => findClassHierarchy resolve incl f sc) sc).isSome := by
          intro sc hsc
          have h1 : rank sc < rank className := hrank className info hres sc hsc
          have h2 : rank className ≤ f := Nat.lt_succ_iff.mp hlt
          exact ih sc (Nat.lt_of_lt_of_le h1 h2)
        have := hierFold_isSome _ info.superclasses hall
        cases hfold : hierFold
            (fun sc => findClassHierarchy resolve incl f sc) info.superclasses with
        | none => rw [hfold] at this; cases this
        | some supers => simp
  · intro resolve incl a b infoA infoB hra hb hrb ha fuel
    induction fuel using Nat.strong_induction_on with
    | _ fuel ih =>
      match fuel with
      | 0 => rfl
      | f + 1 =>
        simp only [findClassHierarchy, hra]
        have hbnone : findClassHierarchy resolve incl f b = none := by
          match f with
          | 0 => rfl
          | g + 1 =>
            simp only [findClassHierarchy, hrb]
            have hanone : findClassHierarchy resolve incl g a = none :=
              ih g (by omega)
            rw [hierFold_none_of_mem _ _ a ha hanone]
        rw [hierFold_none_of_mem _ _ b hb hbnone]

/-- The rank function witnessing acyclicity of `resolveHealth`. -/
def rankHealth : String → Nat := fun n => if n = "AHealth" then 1 else 0

/-- A mutually-recursive (cyclic) resolution map: `CycA` and `CycB` each
resolve to the other as superclass. -/
def resolveCycle : String → Option ClassView := fun n =>
  if n = "CycA" then some ⟨["CycB"], []⟩
  else if n = "CycB" then some ⟨["CycA"], []⟩
  else none

theorem C9_hierarchy_recursion_termination_witness :
    (findClassHierarchy resolveHealth true 2 "AHealth").isSome ∧
    findClassHierarchy resolveCycle true 6 "CycA" = none := by
  constructor
  · refine C9_hierarchy_recursion_termination.1 resolveHealth true rankHealth
      ?_ "AHealth" 2 (by decide)
    intro n info hres sc hsc
    by_cases hn : n = "AHealth"
    · subst hn
      rw [show resolveHealth "AHealth" = some ⟨["AActor"], ["IDamageable"]⟩ from rfl] at hres
      injection hres with hres
      subst hres
      simp only [List.mem_singleton] at hsc
      subst hsc
      decide
    · simp [resolveHealth, hn] at hres
  · exact C9_hierarchy_recursion_termination.2 resolveCycle true "CycA" "CycB"
      ⟨["CycB"], []⟩ ⟨["CycA"], []⟩ (by decide) (by decide) (by decide) (by decide) 6

theorem dictGet_eq_none_iff (d : List (String × α)) (k : String) :
    dictGet d k = none ↔ k ∉ d.map Prod.fst := by
  induction d with
  | nil => simp [dictGet]
  | cons p t ih =>
    simp only [dictGet, List.map_cons, List.mem_cons]
    by_cases h : p.1 = k
    · simp [h]
    · simp [h, ih, Ne.symm h]

theorem dictInsert_of_absent (d : List (String × α)) (k : String) (v : α)
    (h : dictGet d k = none) : dictInsert d k v = d ++ [(k, v)] := by
  simp [dictInsert, h]

theorem dictGet_map_overwrite (d : List (String × α)) (k n : String) (v : α)
    (hne : k ≠ n) :
    dictGet (d.map (fun p => if p.1 = k then (k, v) else p)) n = dictGet d n := by
  induction d with
  | nil => simp [dictGet]
  | cons p t ih =>
    simp only [List.map_cons]
    by_cases hpk : p.1 = k
    · rw [if_pos hpk]
      simp only [dictGet]
      rw [if_neg hne, if_neg (show ¬ p.1 = n by rw [hpk]; exact hne)]
      exact ih
    · rw [if_neg hpk]
      simp only [dictGet]
      by_cases hpn : p.1 = n
      · simp [hpn]
      · rw [if_neg hpn, if_neg hpn]
        exact ih

theorem dictGet_append_single_ne (d : List (String × α)) (k n : String) (v : α)
    (hne : k ≠ n) : dictGet (d ++ [(k, v)]) n = dictGet d n := by
  induction d with
  | nil => simp [dictGet, if_neg hne]
  | cons p t ih =>
    simp only [List.cons_append, dictGet]
    by_cases hpn : p.1 = n
    · simp [hpn]
    · simp only [if_neg hpn]
      exact ih

theorem dictGet_insert_ne (d : List (String × α)) (k n : String) (v : α)
    (hne : k ≠ n) : dictGet (dictInsert d k v) n = dictGet d n := by
  unfold dictInsert
  by_cases hk : (dictGet d k).isSome
  · rw [if_pos hk]
    exact dictGet_map_overwrite d k n v hne
  · rw [if_neg hk]
    exact dictGet_append_single_ne d k n v hne

theorem dictInsert_length_of_absent (d : List (String × α)) (k : String) (v : α)
    (h : dictGet d k = none) : (dictInsert d k v).length = d.length + 1 := by
  rw [dictInsert_of_absent d k v h]
  simp

theorem classCacheInsert_fold_length (names : List String) (v : κ)
    (st : AnalyzerState τ κ) (hnd : names.Nodup)
    (hfresh : ∀ n ∈ names, dictGet st.classCache n = none) :
    ((names.foldl (fun s n => classCacheInsert s n v) st).classCache.length =
      st.classCache.length + names.length) ∧
    (names.foldl (fun s n => classCacheInsert s n v) st).maxCacheSize =
      st.maxCacheSize := by
  induction names generalizing st with
  | nil => simp
  | cons n rest ih =>
    simp only [List.foldl_cons]
    have hn : dictGet st.classCache n = none := hfresh n (List.mem_cons_self _ _)
    have hrest : ∀ m ∈ rest, dictGet (classCacheInsert st n v).classCache m = none := by
      intro m hm
      have hne : n ≠ m := by
        rintro rfl
        exact (List.nodup_cons.mp hnd).1 hm
      show dictGet (dictInsert st.classCache n v) m = none
      rw [dictGet_insert_ne _ _ _ _ hne]
      exact hfresh m (List.mem_cons_of_mem _ hm)
    rcases ih (classCacheInsert st n v) (List.nodup_cons.mp hnd).2 hrest with ⟨hlen, hmax⟩
    refine ⟨?_, hmax⟩
    rw [hlen]
    show (dictInsert st.classCache n v).length + rest.length = _
    rw [dictInsert_length_of_absent _ _ _ hn]
    simp [List.length_cons]
    omega

/-- Pairwise-distinct class names used by the unbounded-class-cache
counterexample. -/
def natKey (n : Nat) : String := String.mk (List.replicate (n + 1) 'c')

theorem natKey_injective : Function.Injective natKey := by
  intro a b h
  have hdata : List.replicate (a + 1) 'c' = List.replicate (b + 1) 'c' := by
    have := congrArg String.data h
    simpa [natKey] using this
  have hlen := congrArg List.length hdata
  simp only [List.length_replicate] at hlen
  omega

/-- C2 counterexample: the class cache is *not* bounded. Inserting 1001
classes with distinct names through the insertion path of
`_extract_classes_from_tree` (a direct `self._class_cache[name] = info`
assignment that never calls `_manage_cache`) leaves the class cache with 1001
entries, strictly above the configured maximum size of 1000. -/
theorem C2_counterexample :
    ((((List.range 1001).map natKey).foldl (fun st n => classCacheInsert st n ())
        (initAnalyzerState : AnalyzerState Unit Unit)).maxCacheSize) <
    ((((List.range 1001).map natKey).foldl (fun st n => classCacheInsert st n ())
        (initAnalyzerState : AnalyzerState Unit Unit)).classCache.length) := by
  have hnd : ((List.range 1001).map natKey).Nodup :=
    List.Nodup.map natKey_injective (List.nodup_range 1001)
  have hfresh : ∀ n ∈ (List.range 1001).map natKey,
      dictGet (initAnalyzerState : AnalyzerState Unit Unit).classCache n = none :=
    fun _ _ => rfl
  rcases classCacheInsert_fold_length ((List.range 1001).map natKey) ()
      (initAnalyzerState : AnalyzerState Unit Unit) hnd hfresh with ⟨hlen, hmax⟩
  rw [hlen, hmax]
  simp [initAnalyzerState]

/-- The inductive invariant of the tree cache under `_parse_file` insertions:
the eviction queue lists exactly the cached keys in insertion order, keys are
pairwise distinct, the cache is within its bound, and the bound is positive. -/
def CacheInv (st : AnalyzerState τ κ) : Prop :=
  st.cacheQueue = st.astCache.map Prod.fst ∧
  (st.astCache.map Prod.fst).Nodup ∧
  st.astCache.length ≤ st.maxCacheSize ∧
  0 < st.maxCacheSize

theorem dictGet_cons_none {e : String × α} {rest : List (String × α)} {k : String}
    (h : dictGet (e :: rest) k = none) : e.1 ≠ k ∧ dictGet rest k = none := by
  by_cases he : e.1 = k
  · simp [dictGet, he] at h
  · simp only [dictGet, if_neg he] at h
    exact ⟨he, h⟩

theorem dictErase_head (e : String × α) (rest : List (String × α))
    (hnd : ((e :: rest).map Prod.fst).Nodup) : dictErase (e :: rest) e.1 = rest := by
  simp only [List.map_cons, List.nodup_cons] at hnd
  unfold dictErase
  rw [List.filter_cons_of_neg (by simp)]
  apply List.filter_eq_self.mpr
  intro p hp
  simp only [decide_eq_true_eq]
  intro hcontra
  exact hnd.1 (hcontra ▸ List.mem_map_of_mem Prod.fst hp)

/-- A `_parse_file` insert of a fresh key into a full cache (under the
invariant) evicts exactly the head of the queue — the least-recently-inserted
surviving key — and appends the new entry and key at the back. -/
theorem parseFileCache_full_evicts (st : AnalyzerState τ κ) (k : String) (v : τ)
    (hq : st.cacheQueue = st.astCache.map Prod.fst)
    (hnd : (st.astCache.map Prod.fst).Nodup)
    (hfull : st.maxCacheSize ≤ st.astCache.length)
    (hpos : 0 < st.maxCacheSize)
    (hfresh : dictGet st.astCache k = none) :
    (parseFileCache st k v).astCache = st.astCache.tail ++ [(k, v)] ∧
    (parseFileCache st k v).cacheQueue = st.cacheQueue.tail ++ [k] ∧
    (parseFileCache st k v).maxCacheSize = st.maxCacheSize ∧
    (parseFileCache st k v).classCache = st.classCache := by
  have hne : st.astCache ≠ [] := by
    intro hcontra
    rw [hcontra] at hfull
    simp at hfull
    omega
  obtain ⟨e, rest, hcache⟩ : ∃ e rest, st.astCache = e :: rest := by
    cases hc : st.astCache with
    | nil => exact absurd hc hne
    | cons e rest => exact ⟨e, rest, rfl⟩
  rcases dictGet_cons_none (hcache ▸ hfresh) with ⟨hek, hrest⟩
  have hqval : st.cacheQueue = e.1 :: rest.map Prod.fst := by
    rw [hq, hcache, List.map_cons]
  unfold parseFileCache
  rw [hfresh]
  simp only [Option.isSome_none, Bool.false_eq_true, if_false]
  unfold manageCache
  rw [if_pos hfull, hqval]
  simp only []
  have herase : dictErase st.astCache e.1 = rest := by
    rw [hcache]
    exact dictErase_head e rest (hcache ▸ hnd)
  rw [herase]
  have hinsert : dictInsert rest k v = rest ++ [(k, v)] :=
    dictInsert_of_absent rest k v hrest
  rw [hinsert]
  refine ⟨?_, ?_, ?_, ?_⟩
  · show rest ++ [(k, v)] = st.astCache.tail ++ [(k, v)]
    rw [hcache, List.tail_cons]
  · rw [List.tail_cons]
  · trivial
  · trivial

/-- A `_parse_file` insert of a fresh key into a cache below the bound simply
appends the entry and enqueues the key. -/
theorem parseFileCache_notfull (st : AnalyzerState τ κ) (k : String) (v : τ)
    (hnotfull : ¬ st.maxCacheSize ≤ st.astCache.length)
    (hfresh : dictGet st.astCache k = none) :
    (parseFileCache st k v).astCache = st.astCache ++ [(k, v)] ∧
    (parseFileCache st k v).cacheQueue = st.cacheQueue ++ [k] ∧
    (parseFileCache st k v).maxCacheSize = st.maxCacheSize ∧
    (parseFileCache st k v).classCache = st.classCache := by
  unfold parseFileCache
  rw [hfresh]
  simp only [Option.isSome_none, Bool.false_eq_true, if_false]
  unfold manageCache
  rw [if_neg hnotfull]
  simp only []
  rw [dictInsert_of_absent st.astCache k v hfresh]
  exact ⟨by trivial, by trivial, by trivial, by trivial⟩

theorem parseFileCache_preserves_inv (st : AnalyzerState τ κ) (k : String) (v : τ)
    (hinv : CacheInv st) :
    CacheInv (parseFileCache st k v) ∧
    (parseFileCache st k v).maxCacheSize = st.maxCacheSize := by
  rcases hinv with ⟨hq, hnd, hle, hpos⟩
  by_cases hhit : (dictGet st.astCache k).isSome
  · have : parseFileCache st k v = st := by
      unfold parseFileCache
      rw [if_pos hhit]
    rw [this]
    exact ⟨⟨hq, hnd, hle, hpos⟩, rfl⟩
  · have hfresh : dictGet st.astCache k = none := by
      cases hval : dictGet st.astCache k with
      | none => rfl
      | some x => rw [hval] at hhit; simp at hhit
    have hkfree : k ∉ st.astCache.map Prod.fst := (dictGet_eq_none_iff _ _).mp hfresh
    by_cases hfull : st.maxCacheSize ≤ st.astCache.length
    · rcases parseFileCache_full_evicts st k v hq hnd hfull hpos hfresh with
        ⟨hc, hqueue, hmax, _⟩
      have hne : st.astCache ≠ [] := by
        intro hcontra
        rw [hcontra] at hfull
        simp at hfull
        omega
      obtain ⟨e, rest, hcache⟩ : ∃ e rest, st.astCache = e :: rest := by
        cases hcval : st.astCache with
        | nil => exact absurd hcval hne
        | cons e rest => exact ⟨e, rest, rfl⟩
      have hndrest : (rest.map Prod.fst).Nodup := by
        rw [hcache, List.map_cons, List.nodup_cons] at hnd
        exact hnd.2
      have hkrest : k ∉ rest.map Prod.fst := by
        rw [hcache, List.map_cons] at hkfree
        exact fun hc' => hkfree (List.mem_cons_of_mem _ hc')
      refine ⟨⟨?_, ?_, ?_, hmax ▸ hpos⟩, hmax⟩
      · rw [hc, hqueue, hq, hcache]
        simp
      · rw [hc, hcache]
        simp only [List.tail_cons, List.map_append, List.map_cons, List.map_nil]
        rw [List.nodup_append]
        refine ⟨hndrest, List.nodup_singleton _, ?_⟩
        intro x hx
        simp only [List.mem_singleton]
        intro hxk
        exact hkrest (hxk ▸ hx)
      · rw [hc, hmax, hcache]
        simp only [List.tail_cons, List.length_append, List.length_cons, List.length_nil]
        rw [hcache] at hle
        simp only [List.length_cons] at hle
        omega
    · rcases parseFileCache_notfull st k v hfull hfresh with ⟨hc, hqueue, hmax, _⟩
      refine ⟨⟨?_, ?_, ?_, hmax ▸ hpos⟩, hmax⟩
      · rw [hc, hqueue, hq]
        simp
      · rw [hc]
        simp only [List.map_append, List.map_cons, List.map_nil]
        rw [List.nodup_append]
        refine ⟨hnd, List.nodup_singleton _, ?_⟩
        intro x hx
        simp only [List.mem_singleton]
        intro hxk
        exact hkfree (hxk ▸ hx)
      · rw [hc, hmax]
        simp only [List.length_append, List.length_cons, List.length_nil]
        omega

theorem parseFileCache_fold_inv (ops : List (String × τ)) (st : AnalyzerState τ κ)
    (hinv : CacheInv st) :
    CacheInv (ops.foldl (fun s p => parseFileCache s p.1 p.2) st) ∧
    (ops.foldl (fun s p => parseFileCache s p.1 p.2) st).maxCacheSize =
      st.maxCacheSize := by
  induction ops generalizing st with
  | nil => exact ⟨hinv, rfl⟩
  | cons p rest ih =>
    simp only [List.foldl_cons]
    rcases parseFileCache_preserves_inv st p.1 p.2 hinv with ⟨hinv', hmax⟩
    rcases ih (parseFileCache st p.1 p.2) hinv' with ⟨hinv'', hmax'⟩
    exact ⟨hinv'', hmax' ▸ hmax ▸ rfl⟩

/-- C2 (amended): only the *tree* cache is bounded. Starting from the
analyzer's initial state, any sequence of `_parse_file` insertions leaves the
tree cache within the 1000-entry bound, and an insertion into a full cache
evicts exactly the front of the shared insertion-order queue — the
least-recently-inserted surviving key (FIFO, not LRU). The class cache,
however, is filled by direct dictionary assignment that bypasses
`_manage_cache` and is unbounded (see the counterexample). -/
theorem C2_tree_cache_bounded_fifo {τ κ : Type} :
    (∀ (ops : List (String × τ)),
      ((ops.foldl (fun s p => parseFileCache s p.1 p.2)
          (initAnalyzerState : AnalyzerState τ κ)).astCache.length ≤
        (initAnalyzerState : AnalyzerState τ κ).maxCacheSize)) ∧
    (∀ (st : AnalyzerState τ κ) (k : String) (v : τ),
      st.cacheQueue = st.astCache.map Prod.fst →
      (st.astCache.map Prod.fst).Nodup →
      st.maxCacheSize ≤ st.astCache.length →
      0 < st.maxCacheSize →
      dictGet st.astCache k = none →
      (parseFileCache st k v).astCache = st.astCache.tail ++ [(k, v)] ∧
      (parseFileCache st k v).cacheQueue = st.cacheQueue.tail ++ [k]) := by
  constructor
  · intro ops
    have hinit : CacheInv (initAnalyzerState : AnalyzerState τ κ) := by
      refine ⟨rfl, List.nodup_nil, ?_, ?_⟩ <;> simp [initAnalyzerState]
    rcases parseFileCache_fold_inv ops _ hinit with ⟨⟨_, _, hle, _⟩, hmax⟩
    rw [← hmax]
    exact hle
  · intro st k v hq hnd hfull hpos hfresh
    rcases parseFileCache_full_evicts st k v hq hnd hfull hpos hfresh with ⟨hc, hqueue, _, _⟩
    exact ⟨hc, hqueue⟩

/-- A concrete full cache state for the witness (bound 2, two cached trees). -/
def fullCacheState : AnalyzerState Unit Unit :=
  { classCache := [], astCache := [("x", ()), ("y", ())],
    cacheQueue := ["x", "y"], maxCacheSize := 2 }

theorem C2_tree_cache_bounded_fifo_witness :
    (parseFileCache fullCacheState "z" ()).astCache = [("y", ()), ("z", ())] ∧
    (parseFileCache fullCacheState "z" ()).cacheQueue = ["y", "z"] := by
  have h := (C2_tree_cache_bounded_fifo (τ := Unit) (κ := Unit)).2 fullCacheState "z" ()
    (by decide) (by decide) (by decide) (by decide) (by decide)
  exact h

theorem searchRun_matches (fs : FileSys) (cfg : Config) (filePattern : PyStr)
    (includeComments : Bool) (scope : Option SearchScope) (maxResults : Nat)
    (queryMode : QueryMode) (searchPaths : List PyPath)
    (queryModeResolved : QueryMode) (m : Matcher) :
    (searchRun fs cfg filePattern includeComments scope maxResults queryMode
        searchPaths queryModeResolved m).matches' =
      scopeFilter cfg (normalizeScope cfg scope)
        (sortIfTokens queryModeResolved
          (searchResultsRaw fs searchPaths filePattern includeComments maxResults m)) :=
  rfl

theorem mem_scopeFilter_project (cfg : Config) (l : List SearchMatch) (m : SearchMatch)
    (h : m ∈ scopeFilter cfg SearchScope.project l) :
    isUnderAnyRoot m.file cfg.getProjectPaths = true := by
  simp only [scopeFilter] at h
  exact (List.mem_filter.mp h).2

theorem mem_scopeFilter (cfg : Config) (ns : SearchScope) (l : List SearchMatch)
    (m : SearchMatch) (h : m ∈ scopeFilter cfg ns l) : m ∈ l := by
  cases ns <;> simp only [scopeFilter] at h
  · exact (List.mem_filter.mp h).1
  · exact (List.mem_filter.mp h).1
  · exact (List.mem_filter.mp h).1
  · exact h

/-- C10: every dictionary returned by `search_code` satisfies
`count == len(matches)`, on each of its return paths — the empty-roots early
return, the invalid-regex return, the empty-token-list return, and the main
path where `count` is computed from the already scope-filtered match list. -/
theorem C10_count_eq_matches_length
    (compile : PyStr → Except PyStr (PyStr → Bool)) (fs : FileSys) (cfg : Config)
    (lp : LegacyPaths) (query filePattern : PyStr) (includeComments : Bool)
    (scope : Option SearchScope) (maxResults : Nat) (queryMode : QueryMode) :
    (searchCode compile fs cfg lp query filePattern includeComments scope maxResults
        queryMode).count =
    (searchCode compile fs cfg lp query filePattern includeComments scope maxResults
        queryMode).matches'.length := by
  unfold searchCode
  split
  · rfl
  · split
    · split
      · rfl
      · rfl
    · split
      · rfl
      · rfl

/-- C4 counterexample: with no roots configured for the requested scope (and
no legacy fallback paths), `search_code` returns a plain empty result — no
`error` key, zero matches — instead of surfacing a NoRootsConfigured failure
with guidance. -/
theorem C4_counterexample :
    (searchCode (fun _ => Except.error []) [] { sourceConfigs := [] } {}
        ("Health").data ("*.\x7bh,cpp\x7d").data true (some SearchScope.project) 500
        QueryMode.tokens).error = none ∧
    (searchCode (fun _ => Except.error []) [] { sourceConfigs := [] } {}
        ("Health").data ("*.\x7bh,cpp\x7d").data true (some SearchScope.project) 500
        QueryMode.tokens).matches' = [] ∧
    (searchCode (fun _ => Except.error []) [] { sourceConfigs := [] } {}
        ("Health").data ("*.\x7bh,cpp\x7d").data true (some SearchScope.project) 500
        QueryMode.tokens).count = 0 := by
  refine ⟨by decide, by decide, by decide⟩

/-- C4 (amended): whenever the requested scope resolves to an empty root list
(including the legacy fallback), `search_code` silently returns an empty
no-matches result — empty `matches`, `count = 0`, empty `searched_paths`, and
no error field; the actionable NoRootsConfigured guidance is raised only by
`analyze_class`, not by `search_code`. -/
theorem C4_empty_roots_silent_empty
    (compile : PyStr → Except PyStr (PyStr → Bool)) (fs : FileSys) (cfg : Config)
    (lp : LegacyPaths) (query filePattern : PyStr) (includeComments : Bool)
    (scope : Option SearchScope) (maxResults : Nat) (queryMode : QueryMode)
    (h : getSearchPaths cfg lp scope none = []) :
    (searchCode compile fs cfg lp query filePattern includeComments scope maxResults
        queryMode).error = none ∧
    (searchCode compile fs cfg lp query filePattern includeComments scope maxResults
        queryMode).matches' = [] ∧
    (searchCode compile fs cfg lp query filePattern includeComments scope maxResults
        queryMode).count = 0 ∧
    (searchCode compile fs cfg lp query filePattern includeComments scope maxResults
        queryMode).searchedPaths = [] := by
  unfold searchCode
  rw [if_pos h]
  exact ⟨rfl, rfl, rfl, rfl⟩

theorem C4_empty_roots_silent_empty_witness :
    (searchCode (fun _ => Except.error []) [] { sourceConfigs := [] } {}
        ("GetOwner").data ("*.h").data true none 100 QueryMode.smart).error = none ∧
    (searchCode (fun _ => Except.error []) [] { sourceConfigs := [] } {}
        ("GetOwner").data ("*.h").data true none 100 QueryMode.smart).matches' = [] ∧
    (searchCode (fun _ => Except.error []) [] { sourceConfigs := [] } {}
        ("GetOwner").data ("*.h").data true none 100 QueryMode.smart).count = 0 ∧
    (searchCode (fun _ => Except.error []) [] { sourceConfigs := [] } {}
        ("GetOwner").data ("*.h").data true none 100 QueryMode.smart).searchedPaths = [] :=
  C4_empty_roots_silent_empty (fun _ => Except.error []) [] { sourceConfigs := [] } {}
    ("GetOwner").data ("*.h").data true none 100 QueryMode.smart (by decide)

/-- A configuration whose project root is (erroneously) a subdirectory of the
configured engine root. -/
def engineSubConfig : Config :=
  { sourceConfigs :=
      [⟨[("Eng").data, ("Source").data], SourceType.engineSource⟩,
       ⟨[("Eng").data, ("Source").data, ("Sub").data], SourceType.projectSource⟩] }

/-- The single file of the counterexample filesystem: it lives under the
project root, and hence also under the engine root above it. -/
def engineSubFile : PyPath :=
  [("Eng").data, ("Source").data, ("Sub").data, ("A.h").data]

/-- The counterexample filesystem. -/
def engineSubFs : FileSys := [(engineSubFile, [("uses Health here").data])]

/-- C1 counterexample: a `scope=project` search over a configuration whose
project roots erroneously include an engine subdirectory returns a match whose
file lies under the engine root — the post-hoc re-filter checks containment
under the configured project roots themselves, so it cannot reject them. -/
theorem C1_counterexample :
    ((searchCode (fun _ => Except.error []) engineSubFs engineSubConfig {}
        ("Health").data ("*.\x7bh,cpp\x7d").data true (some SearchScope.project) 500
        QueryMode.tokens).matches').map (fun m => m.file) = [engineSubFile] ∧
    isUnderAnyRoot engineSubFile engineSubConfig.getEnginePaths = true := by
  refine ⟨by decide, by decide⟩

/-- C1 (amended): every match returned by a `scope=project` call of
`search_code` has its file contained under one of the roots that the project
scope resolves to (the post-hoc safety re-filter). This does *not* imply
engine-root exclusion: if the configured project roots themselves include an
engine subdirectory, matches under it pass the filter (see the
counterexample). -/
theorem C1_project_scope_containment
    (compile : PyStr → Except PyStr (PyStr → Bool)) (fs : FileSys) (cfg : Config)
    (lp : LegacyPaths) (query filePattern : PyStr) (includeComments : Bool)
    (scope : Option SearchScope) (maxResults : Nat) (queryMode : QueryMode)
    (hscope : normalizeScope cfg scope = SearchScope.project) :
    ∀ m ∈ (searchCode compile fs cfg lp query filePattern includeComments scope
        maxResults queryMode).matches',
      isUnderAnyRoot m.file cfg.getProjectPaths = true := by
  intro m hm
  revert hm
  unfold searchCode
  split
  · intro hm; cases hm
  · split
    · split
      · intro hm; cases hm
      · rw [searchRun_matches, hscope]
        exact mem_scopeFilter_project cfg _ m
    · split
      · intro hm; cases hm
      · rw [searchRun_matches, hscope]
        exact mem_scopeFilter_project cfg _ m

theorem C1_project_scope_containment_witness :
    isUnderAnyRoot
      ({ file := engineSubFile, line := 1, column := 6,
         context := ("uses Health here").data,
         matchedTerms := [("Health").data], score := 1 } : SearchMatch).file
      engineSubConfig.getProjectPaths = true :=
  C1_project_scope_containment (fun _ => Except.error []) engineSubFs engineSubConfig {}
    ("Health").data ("*.\x7bh,cpp\x7d").data true (some SearchScope.project) 500
    QueryMode.tokens (by decide)
    { file := engineSubFile, line := 1, column := 6,
      context := ("uses Health here").data,
      matchedTerms := [("Health").data], score := 1 }
    (by decide)

theorem foldl_mem_or {β γ : Type _} (step : List β → γ → List β) (Q : β → Prop)
    (hstep : ∀ acc c x, x ∈ step acc c → x ∈ acc ∨ Q x) :
    ∀ (l : List γ) (acc : List β) (x : β), x ∈ l.foldl step acc → x ∈ acc ∨ Q x := by
  intro l
  induction l with
  | nil => intro acc x hx; exact Or.inl hx
  | cons c rest ih =>
    intro acc x hx
    rcases ih (step acc c) x hx with hmem | hq
    · exact hstep acc c x hmem
    · exact Or.inr hq

theorem mem_pyJoinLines_infix (l : PyStr) (ls : List PyStr) (h : l ∈ ls) :
    l <:+: pyJoinLines ls := by
  induction ls with
  | nil => cases h
  | cons x t ih =>
    rcases List.mem_cons.mp h with rfl | hmem
    · cases t with
      | nil => simp [pyJoinLines]
      | cons y t' =>
        show l <:+: l ++ '\n' :: pyJoinLines (y :: t')
        exact (List.prefix_append l _).isInfix
    · cases t with
      | nil => cases hmem
      | cons y t' =>
        have hrec : l <:+: pyJoinLines (y :: t') := ih hmem
        rcases hrec with ⟨s, u, hsu⟩
        exact ⟨x ++ '\n' :: s, u, by simp [pyJoinLines, ← hsu]⟩

theorem getD_mem_slice (lines : List PyStr) (i : Nat) (h : i < lines.length) :
    lines.getD i [] ∈ pySlice lines (i - 2) (i + 3) := by
  have ha : i - 2 ≤ i := Nat.sub_le i 2
  have hj1 : i - (i - 2) < (i + 3) - (i - 2) := by omega
  have hj2 : i - (i - 2) < (lines.drop (i - 2)).length := by
    rw [List.length_drop]
    omega
  have hgd : lines.getD i [] = lines[i] := List.getD_eq_getElem lines [] h
  have hlen : i - (i - 2) < (pySlice lines (i - 2) (i + 3)).length := by
    unfold pySlice
    rw [List.length_take]
    exact lt_min hj1 hj2
  have hslice : (pySlice lines (i - 2) (i + 3))[i - (i - 2)] = lines[i] := by
    unfold pySlice
    rw [List.getElem_take, List.getElem_drop]
    congr 1
    omega
  rw [hgd, ← hslice]
  exact List.getElem_mem _

/-- The per-match invariant of token-mode results: the matched terms are a
nonempty sublist of the query tokens, the score is their count, and each
matched term occurs case-insensitively in the match's context window. -/
def tokenMatchProp (toks : List PyStr) (mt : SearchMatch) : Prop :=
  mt.matchedTerms ≠ [] ∧ mt.score = mt.matchedTerms.length ∧
  ∀ t ∈ mt.matchedTerms,
    t ∈ toks ∧ pyContainsSub (pyLower t) (pyLower mt.context) = true

theorem scanLineStep_tokens_mem (toks : List PyStr) (ic : Bool) (maxR : Nat)
    (file : PyPath) (lines : List PyStr) (acc : List SearchMatch) (i : Nat)
    (x : SearchMatch)
    (hx : x ∈ scanLineStep (Matcher.tokens toks) ic maxR file lines acc i) :
    x ∈ acc ∨ tokenMatchProp toks x := by
  unfold scanLineStep at hx
  dsimp only at hx
  split at hx
  · exact Or.inl hx
  · split at hx
    · exact Or.inl hx
    · cases heq : matchedTokens toks (pyLower (lines.getD i [])) with
      | nil =>
        rw [heq] at hx
        exact Or.inl hx
      | cons first tail =>
        rw [heq] at hx
        dsimp only at hx
        rcases List.mem_append.mp hx with hmem | hone
        · exact Or.inl hmem
        · right
          rw [List.mem_singleton] at hone
          subst hone
          refine ⟨by simp, rfl, ?_⟩
          intro t ht
          rw [show (first :: tail : List PyStr) = matchedTokens toks
              (pyLower (lines.getD i [])) from heq.symm] at ht
          simp only [matchedTokens, List.mem_filter] at ht
          refine ⟨ht.1, ?_⟩
          have hline : (pyLower t) <:+: pyLower (lines.getD i []) := by
            have hc := ht.2
            unfold pyContainsSub at hc
            exact of_decide_eq_true hc
          show pyContainsSub (pyLower t)
            (pyLower (pyJoinLines (pySlice lines (i - 2) (i + 3)))) = true
          by_cases hi : i < lines.length
          · have hmemslice := getD_mem_slice lines i hi
            have hinf : lines.getD i [] <:+: pyJoinLines (pySlice lines (i - 2) (i + 3)) :=
              mem_pyJoinLines_infix _ _ hmemslice
            have hlow : pyLower (lines.getD i []) <:+:
                pyLower (pyJoinLines (pySlice lines (i - 2) (i + 3))) := by
              unfold pyLower
              exact List.IsInfix.map Char.toLower hinf
            unfold pyContainsSub
            exact decide_eq_true (hline.trans hlow)
          · have hdef : lines.getD i [] = [] :=
              List.getD_eq_default lines [] (Nat.le_of_not_lt hi)
            rw [hdef] at hline
            have ht0 : pyLower t = [] := by
              simpa [pyLower] using List.eq_nil_of_infix_nil hline
            unfold pyContainsSub
            rw [ht0]
            exact decide_eq_true List.nil_infix

theorem scanFile_tokens_mem (toks : List PyStr) (ic : Bool) (maxR : Nat)
    (acc : List SearchMatch) (f : PyPath × List PyStr) (x : SearchMatch)
    (hx : x ∈ scanFile (Matcher.tokens toks) ic maxR acc f) :
    x ∈ acc ∨ tokenMatchProp toks x := by
  unfold scanFile at hx
  split at hx
  · exact Or.inl hx
  · exact foldl_mem_or _ _ (fun a c y hy => scanLineStep_tokens_mem toks ic maxR f.1 f.2 a c y hy)
      (List.range f.2.length) acc x hx

theorem searchResultsRaw_tokens_mem (fs : FileSys) (sp : List PyPath)
    (filePattern : PyStr) (ic : Bool) (maxR : Nat) (toks : List PyStr)
    (x : SearchMatch)
    (hx : x ∈ searchResultsRaw fs sp filePattern ic maxR (Matcher.tokens toks)) :
    tokenMatchProp toks x := by
  unfold searchResultsRaw at hx
  rcases foldl_mem_or _ _ (fun a c y hy => scanFile_tokens_mem toks ic maxR a c y hy)
      (walkFiles fs sp (parseFilePatterns filePattern)) [] x hx with hmem | hq
  · cases hmem
  · exact hq

theorem mem_sortIfTokens (qmr : QueryMode) (l : List SearchMatch) (x : SearchMatch) :
    x ∈ sortIfTokens qmr l ↔ x ∈ l := by
  unfold sortIfTokens
  split
  · exact mem_stableSort _ l x
  · rfl

theorem sortIfTokens_tokens_sorted (l : List SearchMatch) :
    (sortIfTokens QueryMode.tokens l).Pairwise
      (fun a b => b.score ≤ a.score) := by
  unfold sortIfTokens
  rw [if_pos rfl]
  have hpw := stableSort_pairwise (fun a b => decide (b.score < a.score))
    (fun a b h => by
      simp only [decide_eq_true_eq] at h
      simp only [decide_eq_false_iff_not]
      omega)
    (fun a b c hab hbc => by
      simp only [decide_eq_false_iff_not] at hab hbc
      simp only [decide_eq_false_iff_not]
      omega)
    l
  refine hpw.imp ?_
  intro a b h
  simp only [decide_eq_false_iff_not] at h
  omega

theorem scopeFilter_pairwise (cfg : Config) (ns : SearchScope)
    (l : List SearchMatch) (R : SearchMatch → SearchMatch → Prop)
    (h : l.Pairwise R) : (scopeFilter cfg ns l).Pairwise R := by
  cases ns <;> simp only [scopeFilter]
  · exact h.filter _
  · exact h.filter _
  · exact h.filter _
  · exact h

/-- A configuration with the single project root `P`. -/
def projOnlyConfig : Config :=
  { sourceConfigs := [⟨[("P").data], SourceType.projectSource⟩] }

/-- One file whose line contains `health` once. -/
def dupTokenFs : FileSys := [([("P").data, ("B.h").data], [("my health bar").data])]

/-- C5 counterexample: with the duplicate-token query `Health Health` on a
line containing `health`, the returned match has score 2 — the count of
matched tokens *with multiplicity* — while its distinct matched tokens number
only 1, refuting the claim that the score is the count of distinct matched
tokens. -/
theorem C5_counterexample :
    ((searchCode (fun _ => Except.error []) dupTokenFs projOnlyConfig {}
        ("Health Health").data ("*.\x7bh,cpp\x7d").data true
        (some SearchScope.project) 500 QueryMode.tokens).matches').map
      (fun m => m.score) = [2] ∧
    ((searchCode (fun _ => Except.error []) dupTokenFs projOnlyConfig {}
        ("Health Health").data ("*.\x7bh,cpp\x7d").data true
        (some SearchScope.project) 500 QueryMode.tokens).matches').map
      (fun m => m.matchedTerms.dedup.length) = [1] := by
  refine ⟨by decide, by decide⟩

/-- C5 (amended): in token mode `search_code` whitespace-splits the stripped
query; a line matches iff at least one token occurs in it as a
case-insensitive substring; every returned match carries a nonempty
`matched_terms` list of query tokens each occurring case-insensitively in the
match's context, scored by the count of matched tokens *with multiplicity*
(duplicate query tokens count repeatedly, not distinctly); and the returned
matches are sorted descending by score. -/
theorem C5_token_mode_scoring :
    (∀ (toks : List PyStr) (line : PyStr),
      matchedTokens toks (pyLower line) ≠ [] ↔
        ∃ t ∈ toks, pyContainsSub (pyLower t) (pyLower line) = true) ∧
    (∀ (compile : PyStr → Except PyStr (PyStr → Bool)) (fs : FileSys) (cfg : Config)
      (lp : LegacyPaths) (query filePattern : PyStr) (ic : Bool)
      (scope : Option SearchScope) (maxR : Nat),
      ∀ m ∈ (searchCode compile fs cfg lp query filePattern ic scope maxR
          QueryMode.tokens).matches',
        tokenMatchProp (pySplitWs (pyStrip query)) m) ∧
    (∀ (compile : PyStr → Except PyStr (PyStr → Bool)) (fs : FileSys) (cfg : Config)
      (lp : LegacyPaths) (query filePattern : PyStr) (ic : Bool)
      (scope : Option SearchScope) (maxR : Nat),
      ((searchCode compile fs cfg lp query filePattern ic scope maxR
          QueryMode.tokens).matches').Pairwise (fun a b => b.score ≤ a.score)) := by
  refine ⟨?_, ?_, ?_⟩
  · intro toks line
    unfold matchedTokens
    constructor
    · intro hne
      rcases List.exists_mem_of_ne_nil _ hne with ⟨t, ht⟩
      rcases List.mem_filter.mp ht with ⟨htoks, hpred⟩
      exact ⟨t, htoks, hpred⟩
    · rintro ⟨t, htoks, hpred⟩ hnil
      have := List.filter_eq_nil_iff.mp hnil t htoks
      rw [hpred] at this
      exact this rfl
  · intro compile fs cfg lp query filePattern ic scope maxR m hm
    revert hm
    unfold searchCode
    split
    · intro hm; cases hm
    · simp only [resolveQueryMode]
      split
      · intro hm; cases hm
      · rw [searchRun_matches]
        intro hm
        have h1 := mem_scopeFilter cfg _ _ m hm
        have h2 := (mem_sortIfTokens _ _ m).mp h1
        exact searchResultsRaw_tokens_mem fs _ filePattern ic maxR _ m h2
  · intro compile fs cfg lp query filePattern ic scope maxR
    unfold searchCode
    split
    · exact List.Pairwise.nil
    · simp only [resolveQueryMode]
      split
      · exact List.Pairwise.nil
      · rw [searchRun_matches]
        exact scopeFilter_pairwise cfg _ _ _ (sortIfTokens_tokens_sorted _)

/-- The two-line `Health Component` scenario filesystem: one line contains
both query words, another only one. -/
def healthComponentFs : FileSys :=
  [([("P").data, ("C.h").data],
    [("only health here").data, ("health and component here").data, ("nothing").data])]

/-- The score-2 match of the `Health Component` scenario (the line containing
both words). -/
def healthComponentTopMatch : SearchMatch :=
  { file := [("P").data, ("C.h").data], line := 2, column := 1,
    context := ("only health here\nhealth and component here\nnothing").data,
    matchedTerms := [("Health").data, ("Component").data], score := 2 }

theorem C5_token_mode_scoring_witness :
    tokenMatchProp (pySplitWs (pyStrip ("Health Component").data))
      healthComponentTopMatch :=
  C5_token_mode_scoring.2.1 (fun _ => Except.error []) healthComponentFs projOnlyConfig {}
    ("Health Component").data ("*.\x7bh,cpp\x7d").data true
    (some SearchScope.project) 500 healthComponentTopMatch (by decide)

theorem aggBefore_asymm (a b : AggEntry) (h : aggBefore a b = true) :
    aggBefore b a = false := by
  simp only [aggBefore, decide_eq_true_eq] at h
  simp only [aggBefore, decide_eq_false_iff_not]
  cases ha : a.isDefinition <;> cases hb : b.isDefinition <;> simp_all <;> omega

theorem aggBefore_negtrans (a b c : AggEntry) (hab : aggBefore a b = false)
    (hbc : aggBefore b c = false) : aggBefore a c = false := by
  simp only [aggBefore, decide_eq_false_iff_not] at hab hbc ⊢
  cases ha : a.isDefinition <;> cases hb : b.isDefinition <;>
    cases hc : c.isDefinition <;> simp_all <;> omega

theorem aggBefore_false_elim (a b : AggEntry) (h : aggBefore b a = false) :
    (a.isDefinition = true → b.isDefinition = true) ∧
    (a.isDefinition = b.isDefinition → b.matchCount ≤ a.matchCount) := by
  simp only [aggBefore, decide_eq_false_iff_not] at h
  cases ha : a.isDefinition <;> cases hb : b.isDefinition <;> simp_all

theorem aggregateEntry_spec (cn : PyStr) (maxL : Nat) (g : PyStr × List RawMatch) :
    (aggregateEntry cn maxL g).isDefinition = isDefinitionFile cn g.1 ∧
    (aggregateEntry cn maxL g).file = g.1 ∧
    ((aggregateEntry cn maxL g).isDefinition = true →
      (aggregateEntry cn maxL g).sampleLines = [] ∧
      (aggregateEntry cn maxL g).note.isSome = true) := by
  unfold aggregateEntry
  cases h : isDefinitionFile cn g.1 <;> simp [h]

/-- C6 counterexample: for identifier `AHealth` a lone match in
`Code/MyHealth.h` is classified as the definition file even though the file
stem `MyHealth` equals neither `AHealth` nor the stripped `Health` — the
classifier's substring fallback (`"Health.h" in file_name`) fires, refuting
the claim that definition-file status is stem equality. -/
theorem C6_counterexample :
    (aggregate_cpp_references [⟨("Code/MyHealth.h").data, 10, ("ctx line").data⟩]
        ("AHealth").data 3).map (fun e => e.isDefinition) = [true] ∧
    pyStem (pyPathName ("Code/MyHealth.h").data) ≠ ("AHealth").data ∧
    pyStem (pyPathName ("Code/MyHealth.h").data) ≠ strippedName ("AHealth").data := by
  refine ⟨by decide, by decide, by decide⟩

/-- C6 (amended): `_aggregate_cpp_references` groups matches by file and marks
an entry as the definition file exactly when `isDefinitionFile` holds — the
filename stem equals the identifier or the identifier with one leading
framework-prefix character stripped, **or** `"<stripped>.h"` /
`"<stripped>.cpp"` occurs as a substring of the file name. Definition entries
carry only a count, merged line ranges and a note (no code excerpt), and the
final list is sorted so that definition files sort after usage files and
entries of equal definition status sort by descending match count. -/
theorem C6_reference_aggregation :
    (∀ (ms : List RawMatch) (cn : PyStr) (maxL : Nat),
      ∀ e ∈ aggregate_cpp_references ms cn maxL,
        e.isDefinition = isDefinitionFile cn e.file ∧
        (e.isDefinition = true → e.sampleLines = [] ∧ e.note.isSome = true)) ∧
    (∀ (ms : List RawMatch) (cn : PyStr) (maxL : Nat),
      (aggregate_cpp_references ms cn maxL).Pairwise
        (fun a b => (a.isDefinition = true → b.isDefinition = true) ∧
          (a.isDefinition = b.isDefinition → b.matchCount ≤ a.matchCount))) := by
  constructor
  · intro ms cn maxL e he
    unfold aggregate_cpp_references at he
    have h1 := (mem_stableSort aggBefore _ e).mp he
    rcases List.mem_map.mp h1 with ⟨g, _, rfl⟩
    rcases aggregateEntry_spec cn maxL g with ⟨hdef, hfile, hsample⟩
    constructor
    · rw [hdef, hfile]
    · exact hsample
  · intro ms cn maxL
    unfold aggregate_cpp_references
    have hpw := stableSort_pairwise aggBefore aggBefore_asymm aggBefore_negtrans
      ((groupByFile ms).map (aggregateEntry cn maxL))
    exact hpw.imp (fun h => aggBefore_false_elim _ _ h)

/-- The 5-matches-in-`Health.h`, 3-matches-in-`Weapon.cpp` scenario input for
identifier `AHealth`. -/
def scenarioMatches : List RawMatch :=
  [⟨("Code/Health.h").data, 3, ("use AHealth a").data⟩,
   ⟨("Code/Health.h").data, 5, ("use AHealth b").data⟩,
   ⟨("Code/Health.h").data, 9, ("use AHealth c").data⟩,
   ⟨("Code/Health.h").data, 20, ("use AHealth d").data⟩,
   ⟨("Code/Health.h").data, 21, ("use AHealth e").data⟩,
   ⟨("Code/Weapon.cpp").data, 2, ("use AHealth f").data⟩,
   ⟨("Code/Weapon.cpp").data, 40, ("use AHealth g").data⟩,
   ⟨("Code/Weapon.cpp").data, 41, ("use AHealth h").data⟩]

/-- The aggregated definition-file entry of the scenario. -/
def scenarioDefEntry : AggEntry :=
  { file := ("Code/Health.h").data, isDefinition := true, matchCount := 5,
    lineRanges := [("3-5").data, ("9").data, ("20-21").data], sampleLines := [],
    truncated := false,
    note := some ("Class definition file (5 references, likely self-references)").data }

theorem C6_reference_aggregation_witness :
    scenarioDefEntry.isDefinition = isDefinitionFile ("AHealth").data scenarioDefEntry.file ∧
    (scenarioDefEntry.isDefinition = true →
      scenarioDefEntry.sampleLines = [] ∧ scenarioDefEntry.note.isSome = true) :=
  C6_reference_aggregation.1 scenarioMatches ("AHealth").data 3 scenarioDefEntry (by decide)
